import Mathlib

/-!
Verification development for the core generator components of a
surgical-data synthesizer (master-schedule generator, pattern sampler,
subpattern filter).

The Python sources are embedded shallowly over exact rational arithmetic:

* Python dicts become insertion-ordered association lists (`dictGet`,
  `dictInsert`, `dictAdd`), matching dict semantics: an update keeps the
  key's original position, a fresh key is appended.
* numpy RNG draws become explicit oracle streams supplied as arguments
  (a Dirichlet draw is an arbitrary rational vector; validity of a draw
  — non-negative entries summing to one — is an explicit hypothesis
  where a property depends on it).
* floats become rationals, so normalization identities are exact.
* identifiers (surgeons, rooms, weekdays, operation cards) are opaque
  and are embedded as naturals.
-/

namespace SG

abbrev Surgeon := Nat
abbrev Room := Nat
abbrev Weekday := Nat
abbrev Card := Nat
abbrev PatternL := List Card
abbrev SchedKey := Surgeon × Room × Weekday
abbrev Sched := List (SchedKey × ℚ)

/-- Association-list lookup, embedding Python dict access `d[k]` / `d.get(k)`. -/
def dictGet {α β : Type} [DecidableEq α] (d : List (α × β)) (k : α) : Option β :=
  (d.find? (fun e => decide (e.1 = k))).map Prod.snd

/-- Association-list update `d[k] = v`: an existing key keeps its position,
a fresh key is appended (Python dict insertion-order semantics). -/
def dictInsert {α β : Type} [DecidableEq α] (d : List (α × β)) (k : α) (v : β) :
    List (α × β) :=
  match dictGet d k with
  | some _ => d.map (fun e => if e.1 = k then (e.1, v) else e)
  | none => d ++ [(k, v)]

/-- Embedding of `d[k] = d.get(k, 0) + v` (accumulating dict update). -/
def dictAdd {α : Type} [DecidableEq α] (d : List (α × ℚ)) (k : α) (v : ℚ) :
    List (α × ℚ) :=
  dictInsert d k ((dictGet d k).getD 0 + v)

/-- Embedding of `defaultdict(list); d[k].append(x)`. -/
def dictPush {α β : Type} [DecidableEq α] (d : List (α × List β)) (k : α) (x : β) :
    List (α × List β) :=
  dictInsert d k ((dictGet d k).getD [] ++ [x])

/-! ## Embedding of `src/generators/schedule.py` (`generate_schedule`)

The source samples, per surgeon, a Dirichlet vector over all
(room, weekday) pairs, optionally sparsifies it, and stores the positive
weights under `(surgeon, room, weekday)` keys.  The numpy generator is
embedded as an oracle giving the i-th surgeon's Dirichlet draw and the
i-th fallback uniform draw; numpy's validation that the Dirichlet
concentration is positive, and Python's division-by-zero on the
concentration formula, are explicit error branches. -/

/-- Failure modes of `generate_schedule`: the explicit `ValueError` for an
empty room-day enumeration, Python's `ZeroDivisionError` on the
concentration formula, and numpy's `ValueError` for a non-positive
Dirichlet concentration. -/
inductive SchedErr : Type
  | noSlots : SchedErr
  | divZero : SchedErr
  | alphaNonPos : SchedErr
deriving DecidableEq

/-- Fields of `ScheduleParams` (`src/generators/params.py`). -/
structure ScheduleParams where
  baseConcentration : ℚ
  workloadScaling : ℚ
  sparsityThreshold : ℚ

/-- Pydantic `Field` bounds on `ScheduleParams`: `base_concentration` gt 0,
`workload_scaling` ge 0, `sparsity_threshold` in [0, 1]. -/
def ScheduleParams.Valid (p : ScheduleParams) : Prop :=
  0 < p.baseConcentration ∧ 0 ≤ p.workloadScaling ∧
    0 ≤ p.sparsityThreshold ∧ p.sparsityThreshold ≤ 1

/-- Oracle for the numpy generator used by `generate_schedule`:
`dirichlet i` is the Dirichlet draw for the i-th surgeon processed, and
`uniform i` the `rng.random(num_slots)` draw should that surgeon hit the
all-below-threshold fallback. -/
structure ScheduleRng where
  dirichlet : Nat → List ℚ
  uniform : Nat → List ℚ

/-- A numpy generator really returns, for each call, a probability vector
of length `num_slots` (Dirichlet) resp. a vector of length `num_slots`
(uniform); stated as a hypothesis on the oracle. -/
def ScheduleRng.Valid (rng : ScheduleRng) (n : Nat) : Prop :=
  ∀ i, (rng.dirichlet i).length = n ∧ (∀ x ∈ rng.dirichlet i, 0 ≤ x) ∧
    (rng.dirichlet i).sum = 1 ∧ (rng.uniform i).length = n

/-- Step 1 of `generate_schedule`: per-surgeon total workload,
`surgeon_workloads[surgeon] = surgeon_workloads.get(surgeon, 0.0) + freq`. -/
def surgeonWorkloads (freq : List ((Card × Surgeon) × ℚ)) : List (Surgeon × ℚ) :=
  freq.foldl (fun acc e => dictAdd acc e.1.2 e.2) []

/-- Step 2: `[(room, day) for day in weekdays for room in rooms]`. -/
def roomDayPairs (rooms : List Room) (weekdays : List Weekday) :
    List (Room × Weekday) :=
  (weekdays.map (fun d => rooms.map (fun r => (r, d)))).flatten

/-- Sparsity thresholding `weights[weights < sparsity_threshold] = 0.0`. -/
def thresholdWeights (thr : ℚ) (ws : List ℚ) : List ℚ :=
  ws.map (fun x => if x < thr then 0 else x)

/-- Helper for `np.argmax`: first index of the maximum. -/
def argmaxAux : List ℚ → Nat → Nat → ℚ → Nat
  | [], _, best, _ => best
  | x :: xs, i, best, bv =>
      if bv < x then argmaxAux xs (i + 1) i x else argmaxAux xs (i + 1) best bv

/-- Embedding of `np.argmax` (first index attaining the maximum; numpy
would reject an empty input, which cannot occur at the call site). -/
def argmaxIdx : List ℚ → Nat
  | [] => 0
  | x :: xs => argmaxAux xs 1 0 x

/-- Embedding of `weights = np.zeros(num_slots); weights[max_idx] = 1.0`. -/
def onehot (n idx : Nat) : List ℚ :=
  (List.range n).map (fun j => if j = idx then 1 else 0)

/-- The weight vector computed for one surgeon: concentration formula,
Dirichlet draw (validity of the concentration checked as numpy does),
then the sparsity-threshold block of `generate_schedule`. -/
def surgeonWeights (params : ScheduleParams) (rng : ScheduleRng) (n i : Nat)
    (w : ℚ) : Except SchedErr (List ℚ) :=
  let denom := 1 + params.workloadScaling * w
  if denom = 0 then .error .divZero
  else
    let conc := params.baseConcentration / denom
    if conc ≤ 0 then .error .alphaNonPos
    else
      let ws := rng.dirichlet i
      if 0 < params.sparsityThreshold then
        let tw := thresholdWeights params.sparsityThreshold ws
        let total := tw.sum
        if 0 < total then .ok (tw.map (fun x => x / total))
        else .ok (onehot n (argmaxIdx (rng.uniform i)))
      else .ok ws

/-- Storing one surgeon's weights:
`for (room, day), weight in zip(room_day_pairs, weights): if weight > 0:
schedule[(surgeon, room, day)] = float(weight)`. -/
def storeWeights (sch : Sched) (s : Surgeon) (pw : List ((Room × Weekday) × ℚ)) :
    Sched :=
  pw.foldl
    (fun acc rdw =>
      if 0 < rdw.2 then dictInsert acc (s, rdw.1.1, rdw.1.2) rdw.2 else acc)
    sch

/-- The per-surgeon loop of `generate_schedule` (step 3), threading the
index of the surgeon being processed as the RNG call index. -/
def scheduleLoop (pairs : List (Room × Weekday)) (params : ScheduleParams)
    (rng : ScheduleRng) : List (Surgeon × ℚ) → Nat → Sched → Except SchedErr Sched
  | [], _, sch => .ok sch
  | (s, w) :: rest, i, sch =>
      match surgeonWeights params rng pairs.length i w with
      | .error e => .error e
      | .ok ws => scheduleLoop pairs params rng rest (i + 1)
          (storeWeights sch s (pairs.zip ws))

/-- Embedding of `generate_schedule` (schedule.py lines 98-152). -/
def generateSchedule (freq : List ((Card × Surgeon) × ℚ)) (rooms : List Room)
    (weekdays : List Weekday) (params : ScheduleParams) (rng : ScheduleRng) :
    Except SchedErr Sched :=
  let workloads := surgeonWorkloads freq
  let pairs := roomDayPairs rooms weekdays
  if pairs.length = 0 then .error .noSlots
  else scheduleLoop pairs params rng workloads 0 []

/-- Sum of all weight values of a schedule mapping. -/
def sumValues (d : Sched) : ℚ := (d.map Prod.snd).sum

/-- The entries of the schedule belonging to one surgeon. -/
def entriesFor (s : Surgeon) (d : Sched) : Sched :=
  d.filter (fun e => decide (e.1.1 = s))

/-- Sum of one surgeon's weights over all (room, weekday) keys. -/
def sumFor (s : Surgeon) (d : Sched) : ℚ := sumValues (entriesFor s d)

/-- A surgeon appears in the schedule mapping. -/
def appears (s : Surgeon) (d : Sched) : Prop := ∃ e ∈ d, e.1.1 = s

/-! ## Embedding of `src/generators/patterns.py` (`generate_patterns`)

The sampler draws cards with `rng.choice(cards, p=weights)` and a
duration with `rng.lognormal(mean_log, std_log)`; both numpy calls of one
loop iteration are embedded as one oracle call `draw ctr` returning an
index into the card list and the sampled duration (a lognormal sample is
an arbitrary positive real, so the distribution parameters looked up in
`duration_distributions` only shape the distribution and the oracle
supplies the sample directly).  The `while` loop of the bounded random
walk is embedded with explicit fuel: `none` means the loop has not
finished within `fuel` iterations. -/

/-- Steps building `surgeon_card_weights[surgeon][card] += freq`
(nested defaultdicts). -/
def surgeonCardWeightsRaw (freq : List ((Card × Surgeon) × ℚ)) :
    List (Surgeon × List (Card × ℚ)) :=
  freq.foldl
    (fun acc e =>
      dictInsert acc e.1.2 (dictAdd ((dictGet acc e.1.2).getD []) e.1.1 e.2))
    []

/-- Per-surgeon normalization: `if total > 0: card_dict[card] /= total`. -/
def normalizeCardDict (d : List (Card × ℚ)) : List (Card × ℚ) :=
  let total := (d.map Prod.snd).sum
  if 0 < total then d.map (fun cw => (cw.1, cw.2 / total)) else d

/-- Surgeon → normalized operation-card weights. -/
def surgeonCardWeights (freq : List ((Card × Surgeon) × ℚ)) :
    List (Surgeon × List (Card × ℚ)) :=
  (surgeonCardWeightsRaw freq).map (fun sd => (sd.1, normalizeCardDict sd.2))

/-- Mapping `(day, room) → [(surgeon, raw score)]` built from the
schedule items. -/
def roomDayToSurgeons (schedule : Sched) :
    List ((Weekday × Room) × List (Surgeon × ℚ)) :=
  schedule.foldl (fun acc e => dictPush acc (e.1.2.2, e.1.2.1) (e.1.1, e.2)) []

/-- Normalization of the surgeon scores within one (room, day):
uniform split when the total is zero, else division by the total. -/
def normalizedScores (surgeonList : List (Surgeon × ℚ)) : List (Surgeon × ℚ) :=
  let rawScores := surgeonList.foldl (fun acc sw => dictInsert acc sw.1 sw.2) []
  let totalScore := (rawScores.map Prod.snd).sum
  if totalScore = 0 then
    rawScores.map (fun sw => (sw.1, 1 / (rawScores.length : ℚ)))
  else rawScores.map (fun sw => (sw.1, sw.2 / totalScore))

/-- Combined operation-card weights across the surgeons active at one
(room, day): `combined_card_weights[card] += norm_weight * weight`. -/
def combinedCardWeights (scw : List (Surgeon × List (Card × ℚ)))
    (surgeonList : List (Surgeon × ℚ)) : List (Card × ℚ) :=
  (normalizedScores surgeonList).foldl
    (fun acc sn =>
      ((dictGet scw sn.1).getD []).foldl
        (fun acc2 cw => dictAdd acc2 cw.1 (sn.2 * cw.2)) acc)
    []

/-- Fields of `PatternParams` used by `generate_patterns`
(`max_minutes_per_day`, `num_patterns_per_room_day`). -/
structure PatternParams where
  maxMinutesPerDay : ℚ
  numPatternsPerRoomDay : Nat

/-- The bounded random walk of `generate_patterns` (lines 98-110): while
the accumulated total is below `max_minutes_per_day`, draw a card and a
duration; if the draw would overflow the day, stop without including it,
otherwise append the card and accumulate.  `fuel` bounds the number of
loop iterations inspected; `none` means the loop is still running after
`fuel` iterations. -/
def walkAux (draw : Nat → Nat × ℚ) (cards : List Card) (maxM : ℚ) :
    Nat → Nat → ℚ → List Card → Option (List Card × ℚ × Nat)
  | 0, _, _, _ => none
  | fuel + 1, ctr, total, seq =>
      if total < maxM then
        let card := cards.getD ((draw ctr).1 % cards.length) 0
        let dur := (draw ctr).2
        if maxM < total + dur then some (seq, total, ctr + 1)
        else walkAux draw cards maxM fuel (ctr + 1) (total + dur) (seq ++ [card])
      else some (seq, total, ctr)

/-- The walk from an empty sequence terminates within some fuel. -/
def WalkStops (draw : Nat → Nat × ℚ) (cards : List Card) (maxM : ℚ)
    (ctr : Nat) : Prop :=
  ∃ fuel r, walkAux draw cards maxM fuel ctr 0 [] = some r

/-- The `for _ in range(num_patterns_per_room_day)` loop: run the walks in
sequence, keeping only non-empty sequences (`if sequence:`). -/
def runWalks (draw : Nat → Nat × ℚ) (cards : List Card) (maxM : ℚ) (fuel : Nat) :
    Nat → Nat → List PatternL → Option (List PatternL × Nat)
  | 0, ctr, acc => some (acc, ctr)
  | k + 1, ctr, acc =>
      match walkAux draw cards maxM fuel ctr 0 [] with
      | none => none
      | some (seq, _, ctr') =>
          runWalks draw cards maxM fuel k ctr'
            (if seq = [] then acc else acc ++ [seq])

/-- The bucket loop of `generate_patterns` (lines 74-113): skip a
(day, room) with an empty surgeon list or an empty combined card
distribution, otherwise sample its patterns; a bucket key is created in
`pattern_data` only when some non-empty sequence is appended. -/
def patternsLoop (scw : List (Surgeon × List (Card × ℚ))) (params : PatternParams)
    (draw : Nat → Nat × ℚ) (fuel : Nat) :
    List ((Weekday × Room) × List (Surgeon × ℚ)) → Nat →
      List ((Weekday × Room) × List PatternL) →
      Option (List ((Weekday × Room) × List PatternL))
  | [], _, acc => some acc
  | (k, sl) :: rest, ctr, acc =>
      if sl = [] then patternsLoop scw params draw fuel rest ctr acc
      else
        let cw := combinedCardWeights scw sl
        if cw = [] then patternsLoop scw params draw fuel rest ctr acc
        else
          match runWalks draw (cw.map Prod.fst) params.maxMinutesPerDay fuel
              params.numPatternsPerRoomDay ctr [] with
          | none => none
          | some (pats, ctr') =>
              patternsLoop scw params draw fuel rest ctr'
                (if pats = [] then acc else acc ++ [(k, pats)])

/-! ## Embedding of `remove_subpatterns` / `_is_proper_multiset_subset` -/

/-- A pattern's `Counter`: the multiset of its cards. -/
def patternMultiset (p : PatternL) : Multiset Card := (p : Multiset Card)

/-- Embedding of `_is_proper_multiset_subset` (patterns.py lines
120-129): quick length check, per-key count check over the keys of `a`,
then the properness check `a != b`. -/
def isProperMultisetSubset (a b : Multiset Card) : Bool :=
  if b.card < a.card then false
  else if decide (∃ k ∈ a.toFinset, b.count k < a.count k) then false
  else decide (a ≠ b)

/-- The set of unique patterns across all buckets
(`{p for patterns in pattern_data.values() for p in patterns}`). -/
def allPatterns (d : List ((Weekday × Room) × List PatternL)) : List PatternL :=
  ((d.map Prod.snd).flatten).dedup

/-- Stable insertion by length (used to embed `sorted(key=len)`). -/
def insertByLen (p : PatternL) : List PatternL → List PatternL
  | [] => [p]
  | q :: qs => if p.length < q.length then p :: q :: qs else q :: insertByLen p qs

/-- Stable sort of the unique patterns by ascending length. -/
def sortByLen (l : List PatternL) : List PatternL :=
  l.foldl (fun acc p => insertByLen p acc) []

/-- `unique_sorted` of `remove_subpatterns`. -/
def uniqueSorted (d : List ((Weekday × Room) × List PatternL)) : List PatternL :=
  sortByLen (allPatterns d)

/-- `suffix_candidates_for_len[L]`: the unique patterns of length ≥ L in
ascending-length order (the source materializes these lists by
concatenating the length buckets from longest to shortest, which yields
exactly this filtered list). -/
def candidatesFor (d : List ((Weekday × Room) × List PatternL)) (L : Nat) :
    List PatternL :=
  (uniqueSorted d).filter (fun q => decide (L ≤ q.length))

/-- The inner scan: some same-or-longer candidate other than `p` properly
contains `p` as a multiset. -/
def subsumedBy (cands : List PatternL) (p : PatternL) : Bool :=
  cands.any (fun q =>
    decide (q ≠ p) && isProperMultisetSubset (patternMultiset p) (patternMultiset q))

/-- One iteration of the main check of `remove_subpatterns`: skip a
pattern already discarded, otherwise discard it when some candidate
subsumes it. -/
def discardStep (d : List ((Weekday × Room) × List PatternL))
    (surv : List PatternL) (p : PatternL) : List PatternL :=
  if p ∈ surv then
    if subsumedBy (candidatesFor d p.length) p then surv.erase p else surv
  else surv

/-- The surviving set `non_subpatterns` after the main check. -/
def survivorsList (d : List ((Weekday × Room) × List PatternL)) : List PatternL :=
  (uniqueSorted d).foldl (discardStep d) (allPatterns d)

/-- Embedding of `remove_subpatterns` (patterns.py lines 132-191):
filter every bucket by membership in the surviving set, keeping keys and
relative order. -/
def removeSubpatterns (d : List ((Weekday × Room) × List PatternL)) :
    List ((Weekday × Room) × List PatternL) :=
  d.map (fun e => (e.1, e.2.filter (fun p => decide (p ∈ survivorsList d))))

/-- Embedding of `generate_patterns` (patterns.py lines 17-117). -/
def generatePatterns (schedule : Sched) (freq : List ((Card × Surgeon) × ℚ))
    (params : PatternParams) (draw : Nat → Nat × ℚ) (fuel : Nat) :
    Option (List ((Weekday × Room) × List PatternL)) :=
  (patternsLoop (surgeonCardWeights freq) params draw fuel
      (roomDayToSurgeons schedule) 0 []).map removeSubpatterns

/-- The active-surgeon list of a (weekday, room) bucket. -/
def surgeonsAt (schedule : Sched) (k : Weekday × Room) : List (Surgeon × ℚ) :=
  (dictGet (roomDayToSurgeons schedule) k).getD []

/-! ## Pipeline embedding for the determinism claim

`generate_all_data` derives one numpy generator per phase from the seed
(`np.random.SeedSequence(seed).spawn(8)`); that derivation is a fixed
deterministic function of the seed, embedded as an arbitrary function
`rngOf` from seeds to oracle bundles. -/

/-- The per-seed bundle of RNG oracles of the two core phases. -/
structure RngBundle where
  schedDirichlet : Nat → List ℚ
  schedUniform : Nat → List ℚ
  patternDraw : Nat → Nat × ℚ

/-- The schedule-then-patterns slice of `generate_all_data`
(generate_all_data.py lines 92-119 restricted to the core phases). -/
def generateScheduleAndPatterns (rngOf : Nat → RngBundle)
    (freq : List ((Card × Surgeon) × ℚ)) (rooms : List Room)
    (weekdays : List Weekday) (sparams : ScheduleParams)
    (pparams : PatternParams) (fuel : Nat) (seed : Nat) :
    Except SchedErr (Sched × Option (List ((Weekday × Room) × List PatternL))) :=
  let b := rngOf seed
  match generateSchedule freq rooms weekdays sparams
      ⟨b.schedDirichlet, b.schedUniform⟩ with
  | .error e => .error e
  | .ok sched => .ok (sched, generatePatterns sched freq pparams b.patternDraw fuel)

/-! ## Concrete instances used by counterexamples and witnesses -/

/-- Oracle whose Dirichlet draws are the one-point distribution. -/
def cRngUnit : ScheduleRng := ⟨fun _ => [1], fun _ => [1]⟩

/-- Oracle whose Dirichlet draws are uniform over two slots. -/
def cRngHalf : ScheduleRng := ⟨fun _ => [1/2, 1/2], fun _ => [1/2, 1/2]⟩

/-- Oracle whose Dirichlet draws are (1/3, 2/3). -/
def cRngThird : ScheduleRng := ⟨fun _ => [1/3, 2/3], fun _ => [1/3, 2/3]⟩

/-- Schedule parameters with no workload scaling and no sparsity. -/
def cParamsPlain : ScheduleParams := ⟨1, 0, 0⟩

/-- Schedule parameters with workload scaling 1/2 and no sparsity. -/
def cParamsScaled : ScheduleParams := ⟨1, 1/2, 0⟩

/-- Frequency mapping with two surgeons of equal workload. -/
def cFreqTwo : List ((Card × Surgeon) × ℚ) := [((0, 0), 1), ((0, 1), 1)]

/-- Frequency mapping with a single surgeon. -/
def cFreqOne : List ((Card × Surgeon) × ℚ) := [((0, 0), 1)]

/-- Frequency mapping containing a negative frequency. -/
def cFreqNeg : List ((Card × Surgeon) × ℚ) := [((0, 0), -(1/2))]

/-- The schedule produced from `cFreqTwo` on one room and two weekdays. -/
def cSchedTwo : Sched :=
  [((0, 0, 0), 1/2), ((0, 0, 1), 1/2), ((1, 0, 0), 1/2), ((1, 0, 1), 1/2)]

/-- A one-entry schedule. -/
def cSchedOne : Sched := [((0, 0, 0), 1)]

/-- The pattern corpus `[(A,B), (A,B,C), (A,A,B)]` of the subsumption
example, with cards A, B, C embedded as 0, 1, 2, in one bucket. -/
def cCorpus : List ((Weekday × Room) × List PatternL) :=
  [((0, 0), [[0, 1], [0, 1, 2], [0, 0, 1]])]

/-- A corpus of two equal-multiset patterns in different orders. -/
def cCorpusReordered : List ((Weekday × Room) × List PatternL) :=
  [((0, 0), [[0, 1], [1, 0]])]

/-- Pattern parameters: a 10-minute day, one pattern per room-day. -/
def cPParams : PatternParams := ⟨10, 1⟩

/-- A pattern-phase oracle always drawing card index 0 with duration 5. -/
def cDraw : Nat → Nat × ℚ := fun _ => (0, 5)

/-- The duration stream 2^-(n+1): the walk's accumulated total converges
to 1 below a capacity of 2, so the while loop never exits. -/
def halvingDraw : Nat → Nat × ℚ := fun n => (0, (1/2) ^ (n + 1))

/-- A constant RNG-bundle derivation for the determinism witness. -/
def cBundleOf : Nat → RngBundle :=
  fun _ => ⟨fun _ => [1], fun _ => [1], fun _ => (0, 5)⟩

/-! ## Association-list lemmas -/

theorem dictGet_none {α β : Type} [DecidableEq α] (d : List (α × β)) (k : α) :
    dictGet d k = none ↔ ∀ e ∈ d, e.1 ≠ k := by
  simp [dictGet, List.find?_eq_none]

theorem dictGet_append {α β : Type} [DecidableEq α] (d₁ d₂ : List (α × β)) (k : α) :
    dictGet (d₁ ++ d₂) k = ((dictGet d₁ k).or (dictGet d₂ k)) := by
  simp [dictGet, List.find?_append]
  cases d₁.find? (fun e => decide (e.1 = k)) <;> simp

theorem dictInsert_fresh {α β : Type} [DecidableEq α] (d : List (α × β)) (k : α)
    (v : β) (h : dictGet d k = none) : dictInsert d k v = d ++ [(k, v)] := by
  simp [dictInsert, h]

theorem keys_map_replace {α β : Type} [DecidableEq α] (d : List (α × β))
    (k : α) (v : β) :
    (d.map (fun e => if e.1 = k then (e.1, v) else e)).map Prod.fst
      = d.map Prod.fst := by
  rw [List.map_map]
  refine List.map_congr_left ?_
  intro e _
  by_cases he : e.1 = k <;> simp [he]

theorem keys_dictInsert_subset {α β : Type} [DecidableEq α] (d : List (α × β))
    (k : α) (v : β) (x : α) (hx : x ∈ (dictInsert d k v).map Prod.fst) :
    x ∈ d.map Prod.fst ∨ x = k := by
  unfold dictInsert at hx
  cases hget : dictGet d k with
  | some w =>
      rw [hget] at hx
      simp only [keys_map_replace] at hx
      exact Or.inl hx
  | none =>
      rw [hget] at hx
      simp only [List.map_append, List.mem_append, List.map_cons, List.map_nil,
        List.mem_cons] at hx
      rcases hx with h | h
      · exact Or.inl h
      · simp at h
        exact Or.inr h

theorem nodupKeys_dictInsert {α β : Type} [DecidableEq α] (d : List (α × β))
    (k : α) (v : β) (h : (d.map Prod.fst).Nodup) :
    ((dictInsert d k v).map Prod.fst).Nodup := by
  unfold dictInsert
  cases hget : dictGet d k with
  | some w =>
      simpa only [keys_map_replace] using h
  | none =>
      rw [dictGet_none] at hget
      simp only [List.map_append, List.map_cons, List.map_nil]
      refine List.Nodup.append h (by simp) ?_
      intro x hx hx'
      simp only [List.mem_singleton] at hx'
      subst hx'
      simp only [List.mem_map] at hx
      obtain ⟨e, he, hek⟩ := hx
      exact hget e he hek

/-! ## Lemmas about the slot enumeration -/

theorem roomDayPairs_eq_nil (rooms : List Room) (weekdays : List Weekday)
    (h : rooms = [] ∨ weekdays = []) : roomDayPairs rooms weekdays = [] := by
  rcases h with h | h
  · subst h
    induction weekdays with
    | nil => rfl
    | cons d ds ih => simp [roomDayPairs, ih]
  · subst h
    rfl

theorem roomDayPairs_length (rooms : List Room) (weekdays : List Weekday) :
    (roomDayPairs rooms weekdays).length = weekdays.length * rooms.length := by
  induction weekdays with
  | nil => simp [roomDayPairs]
  | cons d ds ih =>
      simp only [roomDayPairs, List.map_cons, List.flatten_cons, List.length_append,
        List.length_map, List.length_cons] at ih ⊢
      rw [ih]
      ring

/-! ## Claim C7: empty rooms or weekdays is a fatal configuration error -/

/-- C7: `generate_schedule` fails immediately with the fatal
configuration error (`ValueError` for an empty room-day enumeration) and
produces no schedule whenever the rooms list or the weekdays list is
empty. -/
theorem claim7_empty_config_error (freq : List ((Card × Surgeon) × ℚ))
    (rooms : List Room) (weekdays : List Weekday) (params : ScheduleParams)
    (rng : ScheduleRng) (h : rooms = [] ∨ weekdays = []) :
    generateSchedule freq rooms weekdays params rng = .error .noSlots := by
  unfold generateSchedule
  rw [roomDayPairs_eq_nil rooms weekdays h]
  rfl

/-- Witness for C7 at a concrete input with an empty rooms list. -/
theorem claim7_witness :
    generateSchedule cFreqOne [] [0] cParamsPlain cRngUnit = .error .noSlots :=
  claim7_empty_config_error cFreqOne [] [0] cParamsPlain cRngUnit (Or.inl rfl)

/-! ## Claim C8: negative frequencies are not validated -/

/-- C8 counterexample: the frequency mapping `cFreqNeg` contains a
negative frequency, yet `generate_schedule` raises no input-validation
error and returns a schedule (the code has no sign check; the negative
workload merely enters the concentration formula). -/
theorem claim8_counterexample :
    (∃ e ∈ cFreqNeg, e.2 < 0) ∧
      generateSchedule cFreqNeg [0] [0] cParamsScaled cRngUnit = .ok cSchedOne := by
  constructor
  · refine ⟨((0, 0), -(1/2)), by simp [cFreqNeg], by norm_num⟩
  · with_unfolding_all rfl

theorem surgeonWeights_isOk (params : ScheduleParams) (rng : ScheduleRng)
    (n i : Nat) (w : ℚ) (hbase : 0 < params.baseConcentration)
    (hden : 0 < 1 + params.workloadScaling * w) :
    ∃ ws, surgeonWeights params rng n i w = .ok ws := by
  unfold surgeonWeights
  rw [if_neg (ne_of_gt hden), if_neg (not_le.mpr (div_pos hbase hden))]
  dsimp only
  split
  · split
    · exact ⟨_, rfl⟩
    · exact ⟨_, rfl⟩
  · exact ⟨_, rfl⟩

theorem scheduleLoop_isOk (pairs : List (Room × Weekday))
    (params : ScheduleParams) (rng : ScheduleRng)
    (hbase : 0 < params.baseConcentration) :
    ∀ (rem : List (Surgeon × ℚ)) (i : Nat) (sch : Sched),
      (∀ e ∈ rem, 0 < 1 + params.workloadScaling * e.2) →
      ∃ f, scheduleLoop pairs params rng rem i sch = .ok f := by
  intro rem
  induction rem with
  | nil => exact fun i sch _ => ⟨sch, rfl⟩
  | cons e rest ih =>
      intro i sch hrem
      obtain ⟨s, w⟩ := e
      obtain ⟨ws, hws⟩ := surgeonWeights_isOk params rng pairs.length i w hbase
        (hrem (s, w) (List.mem_cons_self _ _))
      obtain ⟨f, hf⟩ := ih (i + 1) (storeWeights sch s (pairs.zip ws))
        (fun e he => hrem e (List.mem_cons_of_mem _ he))
      refine ⟨f, ?_⟩
      rw [scheduleLoop, hws]
      exact hf

/-- C8 amended: `generate_schedule` performs no sign validation on the
frequency values.  Even when the mapping contains a negative frequency,
generation succeeds and returns a schedule, provided the enumeration is
non-empty and every surgeon's Dirichlet concentration stays positive
(`1 + workload_scaling * workload > 0`); only a non-positive
concentration (or a zero denominator) aborts, via numpy's Dirichlet
validation, not via any input validation of the frequencies. -/
theorem claim8_no_negative_validation (freq : List ((Card × Surgeon) × ℚ))
    (rooms : List Room) (weekdays : List Weekday) (params : ScheduleParams)
    (rng : ScheduleRng) (_hneg : ∃ e ∈ freq, e.2 < 0)
    (hbase : 0 < params.baseConcentration)
    (hconc : ∀ e ∈ surgeonWorkloads freq, 0 < 1 + params.workloadScaling * e.2)
    (hrooms : rooms ≠ []) (hdays : weekdays ≠ []) :
    ∃ sch, generateSchedule freq rooms weekdays params rng = .ok sch := by
  unfold generateSchedule
  rw [if_neg]
  · exact scheduleLoop_isOk (roomDayPairs rooms weekdays) params rng hbase
      (surgeonWorkloads freq) 0 [] hconc
  · rw [roomDayPairs_length]
    exact Nat.mul_ne_zero (fun h => hdays (List.length_eq_zero.mp h))
      (fun h => hrooms (List.length_eq_zero.mp h))

/-- Witness for C8's amended statement at the concrete negative-frequency
input of the counterexample. -/
theorem claim8_witness :
    ∃ sch, generateSchedule cFreqNeg [0] [0] cParamsScaled cRngUnit = .ok sch := by
  refine claim8_no_negative_validation cFreqNeg [0] [0] cParamsScaled cRngUnit
    ⟨((0, 0), -(1/2)), by simp [cFreqNeg], by norm_num⟩ (by norm_num [cParamsScaled])
    ?_ (by simp) (by simp)
  intro e he
  have : surgeonWorkloads cFreqNeg = [(0, -(1/2))] := by
    with_unfolding_all rfl
  rw [this] at he
  simp only [List.mem_singleton] at he
  subst he
  norm_num [cParamsScaled]

/-! ## Per-surgeon weight-vector properties and the schedule loop -/


theorem sum_map_div (l : List ℚ) (d : ℚ) :
    (l.map (fun x => x / d)).sum = l.sum / d := by
  induction l with
  | nil => simp
  | cons x xs ih => simp [ih, add_div]

theorem sum_filter_pos (l : List ℚ) (h : ∀ x ∈ l, 0 ≤ x) :
    (l.filter (fun x => decide (0 < x))).sum = l.sum := by
  induction l with
  | nil => rfl
  | cons x xs ih =>
      rw [List.filter_cons]
      by_cases hx : 0 < x
      · have hd : decide (0 < x) = true := decide_eq_true hx
        simp only [hd, if_true, List.sum_cons]
        rw [ih (fun y hy => h y (List.mem_cons_of_mem _ hy))]
      · have hx0 : x = 0 := le_antisymm (not_lt.mp hx) (h x (List.mem_cons_self _ _))
        have hd : decide (0 < x) = false := decide_eq_false hx
        simp only [hd, if_false, List.sum_cons, hx0, zero_add]
        exact ih (fun y hy => h y (List.mem_cons_of_mem _ hy))

theorem filter_pos_map_snd {α : Type} (l : List (α × ℚ)) :
    (l.filter (fun e => decide (0 < e.2))).map Prod.snd
      = (l.map Prod.snd).filter (fun x => decide (0 < x)) := by
  induction l with
  | nil => rfl
  | cons e rest ih =>
      rw [List.map_cons, List.filter_cons, List.filter_cons]
      by_cases he : 0 < e.2 <;> simp [he, ih]

theorem thresholdWeights_length (thr : ℚ) (ws : List ℚ) :
    (thresholdWeights thr ws).length = ws.length := by
  simp [thresholdWeights]

theorem thresholdWeights_nonneg (thr : ℚ) (ws : List ℚ)
    (h : ∀ x ∈ ws, 0 ≤ x) : ∀ x ∈ thresholdWeights thr ws, 0 ≤ x := by
  intro x hx
  simp only [thresholdWeights, List.mem_map] at hx
  obtain ⟨y, hy, hyx⟩ := hx
  by_cases hc : y < thr
  · rw [if_pos hc] at hyx
    rw [← hyx]
  · rw [if_neg hc] at hyx
    rw [← hyx]
    exact h y hy

theorem onehot_length (n idx : Nat) : (onehot n idx).length = n := by
  simp [onehot]

theorem onehot_nonneg (n idx : Nat) : ∀ x ∈ onehot n idx, 0 ≤ x := by
  intro x hx
  simp only [onehot, List.mem_map] at hx
  obtain ⟨j, _, hj⟩ := hx
  by_cases h : j = idx
  · rw [if_pos h] at hj
    rw [← hj]
    norm_num
  · rw [if_neg h] at hj
    rw [← hj]

theorem onehot_sum_eq (n idx : Nat) :
    (onehot n idx).sum = if idx < n then (1 : ℚ) else 0 := by
  induction n with
  | zero => simp [onehot]
  | succ m ih =>
      rw [onehot, List.range_succ, List.map_append, List.sum_append]
      rw [show ((List.range m).map fun j => if j = idx then (1:ℚ) else 0)
        = onehot m idx from rfl, ih]
      simp only [List.map_cons, List.map_nil, List.sum_cons, List.sum_nil, add_zero]
      rcases Nat.lt_trichotomy idx m with h | h | h
      · rw [if_pos h, if_neg (by omega), if_pos (by omega)]
        norm_num
      · subst h
        rw [if_neg (by omega), if_pos rfl, if_pos (by omega)]
        norm_num
      · rw [if_neg (by omega), if_neg (by omega), if_neg (by omega)]
        norm_num

theorem onehot_sum (n idx : Nat) (h : idx < n) : (onehot n idx).sum = 1 := by
  rw [onehot_sum_eq, if_pos h]

theorem argmaxAux_lt (l : List ℚ) :
    ∀ (i best : Nat) (bv : ℚ), best < i → argmaxAux l i best bv < i + l.length := by
  induction l with
  | nil =>
      intro i best bv h
      simpa [argmaxAux] using h
  | cons x xs ih =>
      intro i best bv h
      rw [argmaxAux]
      by_cases hc : bv < x
      · rw [if_pos hc]
        have h2 := ih (i + 1) i x (by omega)
        simp only [List.length_cons]
        omega
      · rw [if_neg hc]
        have h2 := ih (i + 1) best bv (by omega)
        simp only [List.length_cons]
        omega

theorem argmaxIdx_lt (l : List ℚ) (h : l ≠ []) : argmaxIdx l < l.length := by
  cases l with
  | nil => exact absurd rfl h
  | cons x xs =>
      rw [argmaxIdx]
      have h2 := argmaxAux_lt xs 1 0 x (by omega)
      simp only [List.length_cons]
      omega

theorem surgeonWeights_spec (params : ScheduleParams) (rng : ScheduleRng)
    (n i : Nat) (w : ℚ) (ws : List ℚ) (hrng : rng.Valid n) (hn : n ≠ 0)
    (hok : surgeonWeights params rng n i w = .ok ws) :
    ws.length = n ∧ (∀ x ∈ ws, 0 ≤ x) ∧ ws.sum = 1 := by
  obtain ⟨hdl, hdnn, hds, hul⟩ := hrng i
  unfold surgeonWeights at hok
  dsimp only at hok
  split_ifs at hok with h1 h2 h3 h4
  · -- threshold active, positive total: renormalized thresholded weights
    injection hok with hws
    subst hws
    refine ⟨by simp [thresholdWeights_length, hdl], ?_, ?_⟩
    · intro x hx
      simp only [List.mem_map] at hx
      obtain ⟨y, hy, hyx⟩ := hx
      have hy0 := thresholdWeights_nonneg _ _ hdnn y hy
      rw [← hyx]
      exact div_nonneg hy0 (le_of_lt h4)
    · rw [sum_map_div]
      exact div_self (ne_of_gt h4)
  · -- threshold active, zero total: one-hot fallback
    injection hok with hws
    subst hws
    have hne : rng.uniform i ≠ [] := by
      intro hnil
      rw [hnil] at hul
      simp only [List.length_nil] at hul
      omega
    have hidx := argmaxIdx_lt (rng.uniform i) hne
    rw [hul] at hidx
    exact ⟨onehot_length n _, onehot_nonneg n _, onehot_sum n _ hidx⟩
  · -- no sparsity: the Dirichlet draw itself
    injection hok with hws
    subst hws
    exact ⟨hdl, hdnn, hds⟩

theorem storeWeights_cons (sch : Sched) (s : Surgeon) (e : (Room × Weekday) × ℚ)
    (rest : List ((Room × Weekday) × ℚ)) :
    storeWeights sch s (e :: rest)
      = storeWeights
          (if 0 < e.2 then dictInsert sch (s, e.1.1, e.1.2) e.2 else sch) s rest := by
  simp [storeWeights]

theorem storeWeights_fresh (s : Surgeon) :
    ∀ (pw : List ((Room × Weekday) × ℚ)) (sch : Sched),
      (∀ rd ∈ pw.map Prod.fst, dictGet sch (s, rd.1, rd.2) = none) →
      (pw.map Prod.fst).Nodup →
      storeWeights sch s pw
        = sch ++ (pw.filter (fun e => decide (0 < e.2))).map
            (fun e => ((s, e.1.1, e.1.2), e.2)) := by
  intro pw
  induction pw with
  | nil =>
      intro sch _ _
      simp [storeWeights]
  | cons e rest ih =>
      intro sch hfresh hnodup
      rw [storeWeights_cons, List.filter_cons]
      by_cases hw : 0 < e.2
      · have hd : decide (0 < e.2) = true := decide_eq_true hw
        rw [if_pos hw, hd, if_pos rfl]
        have hkey : dictGet sch (s, e.1.1, e.1.2) = none :=
          hfresh e.1 (by simp)
        rw [dictInsert_fresh sch _ _ hkey]
        rw [ih (sch ++ [((s, e.1.1, e.1.2), e.2)]) ?_ (by
          simp only [List.map_cons] at hnodup
          exact hnodup.of_cons)]
        · simp
        · intro rd hrd
          rw [dictGet_append]
          rw [hfresh rd (List.mem_cons_of_mem _ hrd)]
          have hne : e.1 ≠ rd := by
            intro hEq
            simp only [List.map_cons] at hnodup
            rw [List.nodup_cons] at hnodup
            exact hnodup.1 (hEq ▸ hrd)
          have : dictGet [((s, e.1.1, e.1.2), e.2)] (s, rd.1, rd.2) = none := by
            simp only [dictGet, List.find?]
            have : ((s, e.1.1, e.1.2) = (s, rd.1, rd.2)) = False := by
              simp only [eq_iff_iff, iff_false]
              intro hEq
              apply hne
              have h1 := congrArg (fun x => x.2.1) hEq
              have h2 := congrArg (fun x => x.2.2) hEq
              simp at h1 h2
              exact Prod.ext h1 h2
            simp [this]
          rw [this]
          rfl
      · have hd : decide (0 < e.2) = false := decide_eq_false hw
        rw [if_neg hw, hd, if_neg (by simp)]
        exact ih sch (fun rd hrd => hfresh rd (List.mem_cons_of_mem _ hrd))
          (by
            simp only [List.map_cons] at hnodup
            exact hnodup.of_cons)

theorem sumValues_append (a b : Sched) :
    sumValues (a ++ b) = sumValues a + sumValues b := by
  simp [sumValues]

theorem entriesFor_append (s : Surgeon) (a b : Sched) :
    entriesFor s (a ++ b) = entriesFor s a ++ entriesFor s b := by
  simp [entriesFor]

theorem entriesFor_row_self (s : Surgeon) (pw : List ((Room × Weekday) × ℚ)) :
    entriesFor s ((pw.filter (fun e => decide (0 < e.2))).map
        (fun e => ((s, e.1.1, e.1.2), e.2)))
      = (pw.filter (fun e => decide (0 < e.2))).map
          (fun e => ((s, e.1.1, e.1.2), e.2)) := by
  rw [entriesFor, List.filter_eq_self]
  intro x hx
  simp only [List.mem_map] at hx
  obtain ⟨y, _, hyx⟩ := hx
  rw [← hyx]
  simp

theorem entriesFor_row_other (s t : Surgeon) (hst : t ≠ s)
    (pw : List ((Room × Weekday) × ℚ)) :
    entriesFor t ((pw.filter (fun e => decide (0 < e.2))).map
        (fun e => ((s, e.1.1, e.1.2), e.2))) = [] := by
  rw [entriesFor, List.filter_eq_nil_iff]
  intro x hx
  simp only [List.mem_map] at hx
  obtain ⟨y, _, hyx⟩ := hx
  rw [← hyx]
  simp [Ne.symm hst]

theorem sumValues_row (s : Surgeon) (pw : List ((Room × Weekday) × ℚ))
    (h : ∀ e ∈ pw, 0 ≤ e.2) :
    sumValues ((pw.filter (fun e => decide (0 < e.2))).map
        (fun e => ((s, e.1.1, e.1.2), e.2)))
      = (pw.map Prod.snd).sum := by
  have h1 : ((pw.filter (fun e => decide (0 < e.2))).map
      (fun e => ((s, e.1.1, e.1.2), e.2))).map Prod.snd
        = (pw.filter (fun e => decide (0 < e.2))).map Prod.snd := by
    rw [List.map_map]
    rfl
  rw [sumValues, h1, filter_pos_map_snd, sum_filter_pos]
  intro x hx
  simp only [List.mem_map] at hx
  obtain ⟨e, he, hex⟩ := hx
  exact hex ▸ h e he

theorem foldl_dictAdd_nodup (l : List ((Card × Surgeon) × ℚ)) :
    ∀ acc : List (Surgeon × ℚ), (acc.map Prod.fst).Nodup →
      ((l.foldl (fun acc e => dictAdd acc e.1.2 e.2) acc).map Prod.fst).Nodup := by
  induction l with
  | nil => exact fun acc h => h
  | cons e rest ih =>
      intro acc h
      rw [List.foldl_cons]
      exact ih _ (nodupKeys_dictInsert _ _ _ h)

theorem surgeonWorkloads_nodup (freq : List ((Card × Surgeon) × ℚ)) :
    ((surgeonWorkloads freq).map Prod.fst).Nodup :=
  foldl_dictAdd_nodup freq [] (by simp)

theorem scheduleLoop_spec (pairs : List (Room × Weekday)) (params : ScheduleParams)
    (rng : ScheduleRng) (hrng : rng.Valid pairs.length) (hnp : pairs ≠ [])
    (hpnodup : pairs.Nodup) :
    ∀ (rem : List (Surgeon × ℚ)) (i : Nat) (sch final : Sched),
      (rem.map Prod.fst).Nodup →
      (∀ x ∈ sch, x.1.1 ∉ rem.map Prod.fst) →
      scheduleLoop pairs params rng rem i sch = .ok final →
      (∀ s, s ∉ rem.map Prod.fst → entriesFor s final = entriesFor s sch) ∧
      (∀ s, s ∈ rem.map Prod.fst →
        sumFor s final = 1 ∧ ∀ e ∈ entriesFor s final, 0 < e.2) ∧
      sumValues final = sumValues sch + rem.length := by
  intro rem
  induction rem with
  | nil =>
      intro i sch final _ _ hloop
      rw [scheduleLoop] at hloop
      injection hloop with hfin
      subst hfin
      exact ⟨fun s _ => rfl, fun s hs => absurd hs (by simp), by simp⟩
  | cons head rest ih =>
      intro i sch final hnodup hdisj hloop
      obtain ⟨s, w⟩ := head
      rw [scheduleLoop] at hloop
      cases hsw : surgeonWeights params rng pairs.length i w with
      | error err =>
          rw [hsw] at hloop
          exact absurd hloop (by simp)
      | ok ws =>
          rw [hsw] at hloop
          dsimp only at hloop
          obtain ⟨hl, hnn, hsum⟩ := surgeonWeights_spec params rng pairs.length i w ws
            hrng (fun h0 => hnp (List.length_eq_zero.mp h0)) hsw
          have hzfst : (pairs.zip ws).map Prod.fst = pairs :=
            List.map_fst_zip pairs ws (le_of_eq hl.symm)
          have hsmem : s ∈ (((s, w) :: rest).map Prod.fst) := by simp
          have hstore : storeWeights sch s (pairs.zip ws)
              = sch ++ ((pairs.zip ws).filter (fun e => decide (0 < e.2))).map
                  (fun e => ((s, e.1.1, e.1.2), e.2)) := by
            apply storeWeights_fresh
            · intro rd hrd
              rw [dictGet_none]
              intro x hx hkey
              exact hdisj x hx (hkey ▸ hsmem)
            · rw [hzfst]
              exact hpnodup
          rw [hstore] at hloop
          have hrow_fst : ∀ x ∈ ((pairs.zip ws).filter
              (fun e => decide (0 < e.2))).map (fun e => ((s, e.1.1, e.1.2), e.2)),
              x.1.1 = s := by
            intro x hx
            simp only [List.mem_map] at hx
            obtain ⟨y, _, hyx⟩ := hx
            rw [← hyx]
          have hsrest : s ∉ rest.map Prod.fst := by
            have := hnodup
            simp only [List.map_cons, List.nodup_cons] at this
            exact this.1
          obtain ⟨P1, P2, P3⟩ := ih (i + 1) _ final
            (by
              simp only [List.map_cons, List.nodup_cons] at hnodup
              exact hnodup.2)
            (by
              intro x hx
              rcases List.mem_append.mp hx with hx | hx
              · intro hmem
                exact hdisj x hx (by simp [hmem])
              · rw [hrow_fst x hx]
                exact hsrest)
            hloop
          have hznn : ∀ e ∈ pairs.zip ws, (0:ℚ) ≤ e.2 := by
            intro e he
            exact hnn e.2 (List.of_mem_zip he).2
          have hrowsum : sumValues (((pairs.zip ws).filter
              (fun e => decide (0 < e.2))).map (fun e => ((s, e.1.1, e.1.2), e.2))) = 1 := by
            rw [sumValues_row s _ hznn, List.map_snd_zip pairs ws (le_of_eq hl), hsum]
          refine ⟨?_, ?_, ?_⟩
          · intro t ht
            simp only [List.map_cons, List.mem_cons, not_or] at ht
            rw [P1 t ht.2, entriesFor_append, entriesFor_row_other s t ht.1, List.append_nil]
          · intro t ht
            simp only [List.map_cons, List.mem_cons] at ht
            rcases ht with ht | ht
            · subst ht
              have hent : entriesFor t final = ((pairs.zip ws).filter
                  (fun e => decide (0 < e.2))).map (fun e => ((t, e.1.1, e.1.2), e.2)) := by
                rw [P1 t hsrest, entriesFor_append, entriesFor_row_self]
                have : entriesFor t sch = [] := by
                  rw [entriesFor, List.filter_eq_nil_iff]
                  intro x hx
                  simp only [decide_eq_true_eq]
                  intro hkey
                  exact hdisj x hx (hkey ▸ hsmem)
                rw [this, List.nil_append]
              constructor
              · rw [sumFor, hent, hrowsum]
              · intro e he
                rw [hent] at he
                simp only [List.mem_map, List.mem_filter, decide_eq_true_eq] at he
                obtain ⟨y, ⟨_, hy⟩, hye⟩ := he
                rw [← hye]
                exact hy
            · exact P2 t ht
          · rw [P3, sumValues_append, hrowsum]
            simp only [List.length_cons]
            push_cast
            ring

/-- C1 counterexample: on a frequency mapping with two surgeons, one room
and two weekdays, the returned Schedule sums to 2, not 1: normalization
is per surgeon, not over the entire mapping, so the claimed global
normalization fails (far outside the 1e-9 tolerance). -/
theorem claim1_counterexample :
    generateSchedule cFreqTwo [0] [0, 1] cParamsPlain cRngHalf = .ok cSchedTwo ∧
      sumValues cSchedTwo = 2 ∧ ¬(|sumValues cSchedTwo - 1| ≤ 1 / 1000000000) := by
  refine ⟨by with_unfolding_all rfl, by with_unfolding_all rfl, ?_⟩
  have h2 : sumValues cSchedTwo = 2 := by with_unfolding_all rfl
  rw [h2]
  norm_num

/-- C1 amended: for every frequency mapping, rooms/weekdays lists without
duplicate room-day pairs, and valid Dirichlet draws, the sum of all
weights of the returned Schedule equals the number of surgeons in the
frequency mapping (each surgeon's weights sum to 1; the normalization is
per surgeon). -/
theorem claim1_schedule_total_weight (freq : List ((Card × Surgeon) × ℚ))
    (rooms : List Room) (weekdays : List Weekday) (params : ScheduleParams)
    (rng : ScheduleRng) (sch : Sched)
    (hrng : rng.Valid (roomDayPairs rooms weekdays).length)
    (hnodup : (roomDayPairs rooms weekdays).Nodup)
    (hok : generateSchedule freq rooms weekdays params rng = .ok sch) :
    sumValues sch = ((surgeonWorkloads freq).length : ℚ) := by
  unfold generateSchedule at hok
  dsimp only at hok
  split_ifs at hok with hz
  obtain ⟨_, _, P3⟩ := scheduleLoop_spec (roomDayPairs rooms weekdays) params rng hrng
    (fun h => hz (by rw [h]; rfl)) hnodup (surgeonWorkloads freq) 0 [] sch
    (surgeonWorkloads_nodup freq) (by simp) hok
  simpa [sumValues] using P3

/-- Witness for C1's amended statement at the two-surgeon input. -/
theorem claim1_witness :
    sumValues cSchedTwo = ((surgeonWorkloads cFreqTwo).length : ℚ) := by
  refine claim1_schedule_total_weight cFreqTwo [0] [0, 1] cParamsPlain cRngHalf
    cSchedTwo ?_ (by decide) (by with_unfolding_all rfl)
  intro i
  refine ⟨rfl, ?_, by with_unfolding_all rfl, rfl⟩
  intro x hx
  have hx2 : x = 1/2 := by simpa [cRngHalf] using hx
  rw [hx2]
  norm_num

/-- C10 counterexample: with a duplicated room in the rooms list, the
(surgeon, room, day) keys collide and the later weight overwrites the
earlier one, so the surviving per-surgeon weights sum to 2/3, not 1. -/
theorem claim10_counterexample :
    generateSchedule cFreqOne [0, 0] [0] cParamsPlain cRngThird
        = .ok [((0, 0, 0), 2/3)] ∧
      sumFor 0 [((0, 0, 0), (2 : ℚ)/3)] ≠ 1 := by
  refine ⟨by with_unfolding_all rfl, ?_⟩
  have h23 : sumFor 0 [((0, 0, 0), (2 : ℚ)/3)] = 2/3 := by with_unfolding_all rfl
  rw [h23]
  norm_num

/-- C10 amended: when the room-day pairs are pairwise distinct (no
duplicate rooms/weekdays) and the Dirichlet draws are valid probability
vectors, every surgeon appearing in the returned Schedule has strictly
positive weights summing to exactly 1, including through the sparsity
thresholding and its all-below-threshold fallback. -/
theorem claim10_per_surgeon_distribution (freq : List ((Card × Surgeon) × ℚ))
    (rooms : List Room) (weekdays : List Weekday) (params : ScheduleParams)
    (rng : ScheduleRng) (sch : Sched)
    (hrng : rng.Valid (roomDayPairs rooms weekdays).length)
    (hnodup : (roomDayPairs rooms weekdays).Nodup)
    (hok : generateSchedule freq rooms weekdays params rng = .ok sch) :
    ∀ s, appears s sch → sumFor s sch = 1 ∧ ∀ e ∈ entriesFor s sch, 0 < e.2 := by
  unfold generateSchedule at hok
  dsimp only at hok
  split_ifs at hok with hz
  obtain ⟨P1, P2, _⟩ := scheduleLoop_spec (roomDayPairs rooms weekdays) params rng hrng
    (fun h => hz (by rw [h]; rfl)) hnodup (surgeonWorkloads freq) 0 [] sch
    (surgeonWorkloads_nodup freq) (by simp) hok
  intro s hs
  by_cases hmem : s ∈ (surgeonWorkloads freq).map Prod.fst
  · exact P2 s hmem
  · exfalso
    have hent := P1 s hmem
    obtain ⟨e, he, hes⟩ := hs
    have hmem2 : e ∈ entriesFor s sch := by
      rw [entriesFor, List.mem_filter]
      exact ⟨he, by simp [hes]⟩
    rw [hent] at hmem2
    simp [entriesFor] at hmem2

/-- Witness for C10's amended statement at the two-surgeon input. -/
theorem claim10_witness : sumFor 0 cSchedTwo = 1 := by
  refine (claim10_per_surgeon_distribution cFreqTwo [0] [0, 1] cParamsPlain cRngHalf
    cSchedTwo ?_ (by decide) (by with_unfolding_all rfl) 0
    ⟨((0, 0, 0), 1/2), by simp [cSchedTwo], rfl⟩).1
  intro i
  refine ⟨rfl, ?_, by with_unfolding_all rfl, rfl⟩
  intro x hx
  have hx2 : x = 1/2 := by simpa [cRngHalf] using hx
  rw [hx2]
  norm_num

/-! ## The bounded random walk: capacity bound, non-emptiness, termination -/


theorem walkAux_total_le (draw : Nat → Nat × ℚ) (cards : List Card) (maxM : ℚ) :
    ∀ (fuel ctr : Nat) (total : ℚ) (seq : List Card) (res : List Card × ℚ × Nat),
      total ≤ maxM → walkAux draw cards maxM fuel ctr total seq = some res →
      res.2.1 ≤ maxM := by
  intro fuel
  induction fuel with
  | zero =>
      intro ctr total seq res _ h
      exact absurd h (by simp [walkAux])
  | succ f ih =>
      intro ctr total seq res hle h
      rw [walkAux] at h
      dsimp only at h
      split_ifs at h with h1 h2
      · injection h with h'
        rw [← h']
        exact hle
      · exact ih (ctr + 1) (total + (draw ctr).2) _ res (not_lt.mp h2) h
      · injection h with h'
        rw [← h']
        exact hle

theorem runWalks_nonempty (draw : Nat → Nat × ℚ) (cards : List Card) (maxM : ℚ)
    (fuel : Nat) :
    ∀ (k ctr : Nat) (acc pats : List PatternL) (ctr' : Nat),
      (∀ p ∈ acc, p ≠ []) →
      runWalks draw cards maxM fuel k ctr acc = some (pats, ctr') →
      ∀ p ∈ pats, p ≠ [] := by
  intro k
  induction k with
  | zero =>
      intro ctr acc pats ctr' hacc h
      rw [runWalks] at h
      injection h with h'
      injection h' with h1 h2
      exact h1 ▸ hacc
  | succ m ih =>
      intro ctr acc pats ctr' hacc h
      rw [runWalks] at h
      cases hw : walkAux draw cards maxM fuel ctr 0 [] with
      | none =>
          rw [hw] at h
          exact absurd h (by simp)
      | some res =>
          obtain ⟨seq, t, c⟩ := res
          rw [hw] at h
          dsimp only at h
          refine ih c _ pats ctr' ?_ h
          by_cases hs : seq = []
          · rw [if_pos hs]
            exact hacc
          · rw [if_neg hs]
            intro p hp
            rcases List.mem_append.mp hp with hp | hp
            · exact hacc p hp
            · rw [List.mem_singleton] at hp
              exact hp ▸ hs

theorem patternsLoop_nonempty (scw : List (Surgeon × List (Card × ℚ)))
    (params : PatternParams) (draw : Nat → Nat × ℚ) (fuel : Nat) :
    ∀ (rem : List ((Weekday × Room) × List (Surgeon × ℚ))) (ctr : Nat)
      (acc out : List ((Weekday × Room) × List PatternL)),
      (∀ e ∈ acc, ∀ p ∈ e.2, p ≠ []) →
      patternsLoop scw params draw fuel rem ctr acc = some out →
      ∀ e ∈ out, ∀ p ∈ e.2, p ≠ [] := by
  intro rem
  induction rem with
  | nil =>
      intro ctr acc out hacc h
      rw [patternsLoop] at h
      injection h with h'
      exact h' ▸ hacc
  | cons kv rest ih =>
      intro ctr acc out hacc h
      obtain ⟨k, sl⟩ := kv
      rw [patternsLoop] at h
      dsimp only at h
      split_ifs at h with h1 h2
      · exact ih ctr acc out hacc h
      · exact ih ctr acc out hacc h
      · cases hw : runWalks draw ((combinedCardWeights scw sl).map Prod.fst)
            params.maxMinutesPerDay fuel params.numPatternsPerRoomDay ctr [] with
        | none =>
            rw [hw] at h
            exact absurd h (by simp)
        | some res =>
            obtain ⟨pats, ctr'⟩ := res
            rw [hw] at h
            dsimp only at h
            refine ih ctr' _ out ?_ h
            by_cases hp : pats = []
            · rw [if_pos hp]
              exact hacc
            · rw [if_neg hp]
              intro e he
              rcases List.mem_append.mp he with he | he
              · exact hacc e he
              · rw [List.mem_singleton] at he
                subst he
                exact runWalks_nonempty draw _ _ fuel _ ctr [] pats ctr'
                  (by simp) hw

/-- C3: for every pattern emitted by `generate_patterns`, the walk's
accumulated duration never exceeds `max_minutes_per_day` — a draw that
would overflow stops the walk without being included, so the total at
every walk exit is at most the bound whenever it started within the
bound — and empty sequences are never added to the output. -/
theorem claim3_capacity_bound :
    (∀ (draw : Nat → Nat × ℚ) (cards : List Card) (maxM : ℚ) (fuel ctr : Nat)
        (total : ℚ) (seq : List Card) (res : List Card × ℚ × Nat),
        total ≤ maxM →
        walkAux draw cards maxM fuel ctr total seq = some res → res.2.1 ≤ maxM) ∧
    (∀ (schedule : Sched) (freq : List ((Card × Surgeon) × ℚ))
        (params : PatternParams) (draw : Nat → Nat × ℚ) (fuel : Nat)
        (out : List ((Weekday × Room) × List PatternL)),
        generatePatterns schedule freq params draw fuel = some out →
        ∀ e ∈ out, ∀ p ∈ e.2, p ≠ []) := by
  constructor
  · exact fun draw cards maxM fuel ctr total seq res hle h =>
      walkAux_total_le draw cards maxM fuel ctr total seq res hle h
  · intro schedule freq params draw fuel out h
    unfold generatePatterns at h
    cases hl : patternsLoop (surgeonCardWeights freq) params draw fuel
        (roomDayToSurgeons schedule) 0 [] with
    | none =>
        rw [hl] at h
        exact absurd h (by simp)
    | some out0 =>
        rw [hl] at h
        simp only [Option.map_some'] at h
        injection h with h
        have h0 := patternsLoop_nonempty (surgeonCardWeights freq) params draw fuel
          (roomDayToSurgeons schedule) 0 [] out0 (by simp) hl
        intro e he p hp
        rw [← h] at he
        unfold removeSubpatterns at he
        simp only [List.mem_map] at he
        obtain ⟨e0, he0, hee⟩ := he
        rw [← hee] at hp
        simp only [List.mem_filter] at hp
        exact h0 e0 he0 p hp.1

/-- Witness for C3 at a concrete walk and a concrete pattern output. -/
theorem claim3_witness :
    ((10 : ℚ) ≤ 10) ∧
      (∀ e ∈ [((0, 0), [[0, 0]])], ∀ p ∈ e.2, p ≠ ([] : PatternL)) :=
  ⟨claim3_capacity_bound.1 cDraw [0] 10 5 0 0 [] ([0, 0], 10, 2) (by norm_num)
      (by with_unfolding_all rfl),
    claim3_capacity_bound.2 cSchedOne cFreqOne cPParams cDraw 5 _
      (by with_unfolding_all rfl)⟩

theorem halving_walk_runs_forever :
    ∀ (fuel ctr : Nat) (seq : List Card),
      walkAux halvingDraw [0] 2 fuel ctr (1 - (1/2) ^ ctr) seq = none := by
  intro fuel
  induction fuel with
  | zero => intro ctr seq; rfl
  | succ f ih =>
      intro ctr seq
      rw [walkAux]
      dsimp only [halvingDraw]
      have hpow : (0 : ℚ) < (1/2) ^ ctr := pow_pos (by norm_num) ctr
      have hpow1 : (0 : ℚ) < (1/2) ^ (ctr + 1) := pow_pos (by norm_num) (ctr + 1)
      have harg : (1 - (1/2 : ℚ) ^ ctr) + (1/2) ^ (ctr + 1) = 1 - (1/2) ^ (ctr + 1) := by
        rw [pow_succ]
        ring
      rw [if_pos (by linarith), if_neg (by rw [harg]; linarith), harg]
      exact ih (ctr + 1) _

/-- C4 counterexample: the bounded random walk of `generate_patterns` is
not a bounded loop: on the duration stream 2^-(n+1) with capacity 2 the
accumulated total converges to 1, the overflow break never fires, and the
while loop runs forever — no fuel suffices. -/
theorem claim4_counterexample : ¬ WalkStops halvingDraw [0] 2 0 := by
  rintro ⟨fuel, res, h⟩
  have key := halving_walk_runs_forever fuel 0 []
  rw [show (1 - (1/2 : ℚ) ^ 0) = 0 from by norm_num] at key
  rw [h] at key
  exact absurd key (by simp)

/-- C4 amended: the walk does terminate on every duration stream bounded
below by some positive δ (in particular within about maxM/δ draws); with
real lognormal sampling termination is almost sure but not guaranteed
for every stream, so the loop is not bounded by construction. -/
theorem claim4_walk_termination (draw : Nat → Nat × ℚ) (cards : List Card)
    (maxM : ℚ) (ctr : Nat) (d : ℚ) (hd : 0 < d)
    (hdur : ∀ n, d ≤ (draw n).2) : WalkStops draw cards maxM ctr := by
  obtain ⟨N, hN⟩ := exists_nat_ge (maxM / d)
  have key : ∀ (f c : Nat) (total : ℚ) (seq : List Card),
      maxM - total ≤ (f : ℚ) * d →
      ∃ r, walkAux draw cards maxM (f + 1) c total seq = some r := by
    intro f
    induction f with
    | zero =>
        intro c total seq hb
        rw [walkAux]
        dsimp only
        rw [if_neg (by push_cast at hb; linarith)]
        exact ⟨_, rfl⟩
    | succ f ih =>
        intro c total seq hb
        rw [walkAux]
        dsimp only
        by_cases h1 : total < maxM
        · rw [if_pos h1]
          by_cases h2 : maxM < total + (draw c).2
          · rw [if_pos h2]
            exact ⟨_, rfl⟩
          · rw [if_neg h2]
            apply ih
            have hc := hdur c
            push_cast at hb ⊢
            linarith
        · rw [if_neg h1]
          exact ⟨_, rfl⟩
  have hM : maxM - 0 ≤ (N : ℚ) * d := by
    have := (div_le_iff₀ hd).mp hN
    simpa using this
  obtain ⟨r, hr⟩ := key N ctr 0 [] hM
  exact ⟨N + 1, r, hr⟩

/-- Witness for C4's amended statement: a constant duration stream of 5
is bounded below by 5, so the walk stops. -/
theorem claim4_witness : WalkStops cDraw [0] 10 0 :=
  claim4_walk_termination cDraw [0] 10 0 5 (by norm_num)
    (fun n => by simp [cDraw])

/-! ## Bucket selection of the pattern sampler -/


theorem dictGet_of_mem {α β : Type} [DecidableEq α] :
    ∀ (d : List (α × β)) (k : α) (v : β), (d.map Prod.fst).Nodup →
      (k, v) ∈ d → dictGet d k = some v := by
  intro d
  induction d with
  | nil => intro k v _ h; exact absurd h (by simp)
  | cons e rest ih =>
      intro k v hnodup hmem
      rcases List.mem_cons.mp hmem with h | h
      · rw [← h]
        simp [dictGet, List.find?]
      · have hk : k ∈ rest.map Prod.fst :=
          List.mem_map.mpr ⟨(k, v), h, rfl⟩
        have hne : e.1 ≠ k := by
          intro hEq
          simp only [List.map_cons, List.nodup_cons] at hnodup
          exact hnodup.1 (hEq ▸ hk)
        have hd : decide (e.1 = k) = false := decide_eq_false hne
        rw [dictGet, List.find?]
        rw [hd]
        exact ih k v (by
          simp only [List.map_cons, List.nodup_cons] at hnodup
          exact hnodup.2) h

theorem removeSubpatterns_keys (d : List ((Weekday × Room) × List PatternL)) :
    (removeSubpatterns d).map Prod.fst = d.map Prod.fst := by
  rw [removeSubpatterns, List.map_map]
  rfl

theorem foldl_dictPush_keys :
    ∀ (l : Sched) (acc : List ((Weekday × Room) × List (Surgeon × ℚ))),
      ∀ k ∈ (l.foldl (fun acc e => dictPush acc (e.1.2.2, e.1.2.1) (e.1.1, e.2))
          acc).map Prod.fst,
        k ∈ acc.map Prod.fst ∨ ∃ e ∈ l, k = (e.1.2.2, e.1.2.1) := by
  intro l
  induction l with
  | nil => exact fun acc k hk => Or.inl hk
  | cons e rest ih =>
      intro acc k hk
      rw [List.foldl_cons] at hk
      rcases ih _ k hk with h | h
      · rcases keys_dictInsert_subset acc _ _ k h with h2 | h2
        · exact Or.inl h2
        · exact Or.inr ⟨e, List.mem_cons_self _ _, h2⟩
      · obtain ⟨e', he', hk'⟩ := h
        exact Or.inr ⟨e', List.mem_cons_of_mem _ he', hk'⟩

theorem foldl_dictPush_nodup :
    ∀ (l : Sched) (acc : List ((Weekday × Room) × List (Surgeon × ℚ))),
      (acc.map Prod.fst).Nodup →
      ((l.foldl (fun acc e => dictPush acc (e.1.2.2, e.1.2.1) (e.1.1, e.2))
          acc).map Prod.fst).Nodup := by
  intro l
  induction l with
  | nil => exact fun acc h => h
  | cons e rest ih =>
      intro acc h
      rw [List.foldl_cons]
      exact ih _ (nodupKeys_dictInsert _ _ _ h)

theorem roomDayToSurgeons_nodup (schedule : Sched) :
    ((roomDayToSurgeons schedule).map Prod.fst).Nodup :=
  foldl_dictPush_nodup schedule [] (by simp)

theorem roomDayToSurgeons_keys (schedule : Sched) :
    ∀ k ∈ (roomDayToSurgeons schedule).map Prod.fst,
      ∃ s sc, ((s, k.2, k.1), sc) ∈ schedule := by
  intro k hk
  rcases foldl_dictPush_keys schedule [] k hk with h | h
  · simp at h
  · obtain ⟨e, he, hk'⟩ := h
    refine ⟨e.1.1, e.2, ?_⟩
    rw [hk']
    simpa using he

theorem surgeonsAt_of_mem (schedule : Sched) (k : Weekday × Room)
    (sl : List (Surgeon × ℚ)) (h : (k, sl) ∈ roomDayToSurgeons schedule) :
    surgeonsAt schedule k = sl := by
  rw [surgeonsAt, dictGet_of_mem (roomDayToSurgeons schedule) k sl
    (roomDayToSurgeons_nodup schedule) h]
  rfl

theorem patternsLoop_keys (scw : List (Surgeon × List (Card × ℚ)))
    (params : PatternParams) (draw : Nat → Nat × ℚ) (fuel : Nat) :
    ∀ (rem : List ((Weekday × Room) × List (Surgeon × ℚ))) (ctr : Nat)
      (acc out : List ((Weekday × Room) × List PatternL)),
      patternsLoop scw params draw fuel rem ctr acc = some out →
      ∀ k ∈ out.map Prod.fst,
        k ∈ acc.map Prod.fst ∨
          ∃ sl, (k, sl) ∈ rem ∧ sl ≠ [] ∧ combinedCardWeights scw sl ≠ [] := by
  intro rem
  induction rem with
  | nil =>
      intro ctr acc out h k hk
      rw [patternsLoop] at h
      injection h with h
      exact Or.inl (h ▸ hk)
  | cons kv rest ih =>
      intro ctr acc out h k hk
      obtain ⟨k0, sl⟩ := kv
      rw [patternsLoop] at h
      dsimp only at h
      split_ifs at h with h1 h2
      · rcases ih ctr acc out h k hk with hl | ⟨sl', hmem, hsl⟩
        · exact Or.inl hl
        · exact Or.inr ⟨sl', List.mem_cons_of_mem _ hmem, hsl⟩
      · rcases ih ctr acc out h k hk with hl | ⟨sl', hmem, hsl⟩
        · exact Or.inl hl
        · exact Or.inr ⟨sl', List.mem_cons_of_mem _ hmem, hsl⟩
      · cases hw : runWalks draw ((combinedCardWeights scw sl).map Prod.fst)
            params.maxMinutesPerDay fuel params.numPatternsPerRoomDay ctr [] with
        | none =>
            rw [hw] at h
            exact absurd h (by simp)
        | some res =>
            obtain ⟨pats, ctr'⟩ := res
            rw [hw] at h
            dsimp only at h
            rcases ih ctr' _ out h k hk with hl | ⟨sl', hmem, hsl⟩
            · by_cases hp : pats = []
              · rw [if_pos hp] at hl
                exact Or.inl hl
              · rw [if_neg hp] at hl
                simp only [List.map_append, List.mem_append, List.map_cons,
                  List.map_nil, List.mem_singleton] at hl
                rcases hl with hl | hl
                · exact Or.inl hl
                · exact Or.inr ⟨sl, by rw [hl]; exact List.mem_cons_self _ _,
                    h1, h2⟩
            · exact Or.inr ⟨sl', List.mem_cons_of_mem _ hmem, hsl⟩

/-- C9: every (weekday, room) bucket in the output of `generate_patterns`
comes from the schedule's keys, and a bucket whose active-surgeon list is
empty or whose combined card-weight distribution is empty is silently
skipped — it never appears in the output and causes no failure. -/
theorem claim9_skip_buckets (schedule : Sched)
    (freq : List ((Card × Surgeon) × ℚ)) (params : PatternParams)
    (draw : Nat → Nat × ℚ) (fuel : Nat)
    (out : List ((Weekday × Room) × List PatternL))
    (h : generatePatterns schedule freq params draw fuel = some out) :
    (∀ k ∈ out.map Prod.fst, ∃ s sc, ((s, k.2, k.1), sc) ∈ schedule) ∧
      (∀ k, (surgeonsAt schedule k = [] ∨
          combinedCardWeights (surgeonCardWeights freq) (surgeonsAt schedule k)
            = []) →
        k ∉ out.map Prod.fst) := by
  unfold generatePatterns at h
  cases hl : patternsLoop (surgeonCardWeights freq) params draw fuel
      (roomDayToSurgeons schedule) 0 [] with
  | none =>
      rw [hl] at h
      exact absurd h (by simp)
  | some out0 =>
      rw [hl] at h
      simp only [Option.map_some'] at h
      injection h with h
      have hkeys : out.map Prod.fst = out0.map Prod.fst := by
        rw [← h, removeSubpatterns_keys]
      have hmain : ∀ k ∈ out.map Prod.fst,
          ∃ sl, (k, sl) ∈ roomDayToSurgeons schedule ∧ sl ≠ [] ∧
            combinedCardWeights (surgeonCardWeights freq) sl ≠ [] := by
        intro k hk
        rw [hkeys] at hk
        rcases patternsLoop_keys (surgeonCardWeights freq) params draw fuel
          (roomDayToSurgeons schedule) 0 [] out0 hl k hk with h0 | h0
        · simp at h0
        · exact h0
      constructor
      · intro k hk
        obtain ⟨sl, hmem, _, _⟩ := hmain k hk
        exact roomDayToSurgeons_keys schedule k
          (List.mem_map.mpr ⟨(k, sl), hmem, rfl⟩)
      · intro k hskip hk
        obtain ⟨sl, hmem, hsl, hcw⟩ := hmain k hk
        have hat := surgeonsAt_of_mem schedule k sl hmem
        rcases hskip with hskip | hskip
        · exact hsl (hat ▸ hskip)
        · exact hcw (hat ▸ hskip)

/-- Witness for C9 at a one-surgeon, one-bucket input. -/
theorem claim9_witness :
    (∀ k ∈ ([((0, 0), [[0, 0]])] :
        List ((Weekday × Room) × List PatternL)).map Prod.fst,
      ∃ s sc, ((s, k.2, k.1), sc) ∈ cSchedOne) ∧
      (∀ k, (surgeonsAt cSchedOne k = [] ∨
          combinedCardWeights (surgeonCardWeights cFreqOne)
            (surgeonsAt cSchedOne k) = []) →
        k ∉ ([((0, 0), [[0, 0]])] :
          List ((Weekday × Room) × List PatternL)).map Prod.fst) :=
  claim9_skip_buckets cSchedOne cFreqOne cPParams cDraw 5 _
    (by with_unfolding_all rfl)

/-! ## The subpattern filter: subsumption semantics and idempotence -/


theorem isProperMultisetSubset_iff (a b : Multiset Card) :
    isProperMultisetSubset a b = true ↔ a < b := by
  unfold isProperMultisetSubset
  split_ifs with h1 h2
  · simp only [Bool.false_eq_true, false_iff]
    intro hab
    exact absurd (Multiset.card_le_card (le_of_lt hab)) (by omega)
  · simp only [Bool.false_eq_true, false_iff]
    rw [decide_eq_true_eq] at h2
    obtain ⟨k, _, hk⟩ := h2
    intro hab
    exact absurd ((Multiset.le_iff_count.mp (le_of_lt hab)) k) (by omega)
  · rw [decide_eq_true_eq]
    have hle : a ≤ b := by
      rw [Multiset.le_iff_count]
      intro k
      by_cases hk : k ∈ a
      · by_contra hc
        exact h2 (by
          rw [decide_eq_true_eq]
          exact ⟨k, Multiset.mem_toFinset.mpr hk, by omega⟩)
      · rw [Multiset.count_eq_zero_of_not_mem hk]
        exact Nat.zero_le _
    constructor
    · intro hne
      exact lt_of_le_of_ne hle hne
    · intro hab
      exact ne_of_lt hab

theorem mem_insertByLen (p a : PatternL) :
    ∀ l : List PatternL, (a ∈ insertByLen p l ↔ a = p ∨ a ∈ l) := by
  intro l
  induction l with
  | nil => simp [insertByLen]
  | cons q qs ih =>
      rw [insertByLen]
      by_cases hc : p.length < q.length
      · rw [if_pos hc]
        simp [List.mem_cons]
      · rw [if_neg hc]
        simp only [List.mem_cons, ih]
        tauto

theorem mem_sortByLen_aux (a : PatternL) :
    ∀ (l acc : List PatternL),
      (a ∈ l.foldl (fun acc p => insertByLen p acc) acc ↔ a ∈ acc ∨ a ∈ l) := by
  intro l
  induction l with
  | nil => simp
  | cons p rest ih =>
      intro acc
      rw [List.foldl_cons, ih, mem_insertByLen]
      simp only [List.mem_cons]
      tauto

theorem mem_uniqueSorted (d : List ((Weekday × Room) × List PatternL))
    (a : PatternL) : a ∈ uniqueSorted d ↔ a ∈ allPatterns d := by
  rw [uniqueSorted, sortByLen, mem_sortByLen_aux]
  simp

theorem mem_allPatterns (d : List ((Weekday × Room) × List PatternL))
    (q : PatternL) : q ∈ allPatterns d ↔ ∃ e ∈ d, q ∈ e.2 := by
  rw [allPatterns, List.mem_dedup, List.mem_flatten]
  constructor
  · rintro ⟨l, hl, hq⟩
    obtain ⟨e, he, rfl⟩ := List.mem_map.mp hl
    exact ⟨e, he, hq⟩
  · rintro ⟨e, he, hq⟩
    exact ⟨e.2, List.mem_map.mpr ⟨e, he, rfl⟩, hq⟩

theorem subsumedBy_iff (d : List ((Weekday × Room) × List PatternL))
    (p : PatternL) :
    subsumedBy (candidatesFor d p.length) p = true ↔
      ∃ q ∈ allPatterns d, (p : Multiset Card) < (q : Multiset Card) := by
  rw [subsumedBy, List.any_eq_true]
  constructor
  · rintro ⟨q, hq, hcond⟩
    rw [Bool.and_eq_true, decide_eq_true_eq, isProperMultisetSubset_iff] at hcond
    rw [candidatesFor, List.mem_filter] at hq
    exact ⟨q, (mem_uniqueSorted d q).mp hq.1, hcond.2⟩
  · rintro ⟨q, hq, hlt⟩
    refine ⟨q, ?_, ?_⟩
    · rw [candidatesFor, List.mem_filter]
      refine ⟨(mem_uniqueSorted d q).mpr hq, ?_⟩
      rw [decide_eq_true_eq]
      have := Multiset.card_lt_card hlt
      simpa using le_of_lt this
    · rw [Bool.and_eq_true, decide_eq_true_eq, isProperMultisetSubset_iff]
      refine ⟨?_, hlt⟩
      intro hqp
      subst hqp
      exact lt_irrefl _ hlt

theorem discardStep_eq (d : List ((Weekday × Room) × List PatternL))
    (surv : List PatternL) (p : PatternL) :
    discardStep d surv p
      = if subsumedBy (candidatesFor d p.length) p then surv.erase p else surv := by
  rw [discardStep]
  by_cases hmem : p ∈ surv
  · rw [if_pos hmem]
  · rw [if_neg hmem]
    by_cases hc : subsumedBy (candidatesFor d p.length) p
    · rw [if_pos hc, List.erase_of_not_mem hmem]
    · rw [if_neg hc]

theorem foldl_discard_mem (d : List ((Weekday × Room) × List PatternL))
    (x : PatternL) :
    ∀ (l init : List PatternL), init.Nodup →
      (x ∈ l.foldl (discardStep d) init ↔
        x ∈ init ∧ ¬(x ∈ l ∧ subsumedBy (candidatesFor d x.length) x = true)) := by
  intro l
  induction l with
  | nil => simp
  | cons p rest ih =>
      intro init hinit
      rw [List.foldl_cons, discardStep_eq]
      by_cases hc : subsumedBy (candidatesFor d p.length) p
      · rw [if_pos hc, ih _ (hinit.erase p), hinit.mem_erase_iff]
        simp only [List.mem_cons]
        constructor
        · rintro ⟨⟨hxp, hxi⟩, hrest⟩
          refine ⟨hxi, ?_⟩
          rintro ⟨hx | hx, hsub⟩
          · exact hxp hx
          · exact hrest ⟨hx, hsub⟩
        · rintro ⟨hxi, hno⟩
          by_cases hxp : x = p
          · subst hxp
            exact absurd ⟨Or.inl rfl, hc⟩ hno
          · exact ⟨⟨hxp, hxi⟩, fun ⟨hx, hsub⟩ => hno ⟨Or.inr hx, hsub⟩⟩
      · rw [if_neg hc, ih _ hinit]
        simp only [List.mem_cons]
        constructor
        · rintro ⟨hxi, hrest⟩
          refine ⟨hxi, ?_⟩
          rintro ⟨hx | hx, hsub⟩
          · subst hx
            exact hc hsub
          · exact hrest ⟨hx, hsub⟩
        · rintro ⟨hxi, hno⟩
          exact ⟨hxi, fun ⟨hx, hsub⟩ => hno ⟨Or.inr hx, hsub⟩⟩

theorem mem_survivorsList (d : List ((Weekday × Room) × List PatternL))
    (p : PatternL) :
    p ∈ survivorsList d ↔
      p ∈ allPatterns d ∧
        ¬∃ q ∈ allPatterns d, (p : Multiset Card) < (q : Multiset Card) := by
  rw [survivorsList, foldl_discard_mem d p (uniqueSorted d) (allPatterns d)
    (List.nodup_dedup _), mem_uniqueSorted, subsumedBy_iff]
  constructor
  · rintro ⟨hp, hno⟩
    exact ⟨hp, fun hex => hno ⟨hp, hex⟩⟩
  · rintro ⟨hp, hno⟩
    exact ⟨hp, fun ⟨_, hex⟩ => hno hex⟩

theorem exists_maximal_aux :
    ∀ (fuel : Nat) (S : List PatternL) (q : PatternL), q ∈ S →
      (∀ t ∈ S, t.length ≤ q.length + fuel) →
      ∃ r ∈ S, (q : Multiset Card) ≤ (r : Multiset Card) ∧
        ∀ t ∈ S, ¬((r : Multiset Card) < (t : Multiset Card)) := by
  intro fuel
  induction fuel with
  | zero =>
      intro S q hq hbound
      refine ⟨q, hq, le_refl _, ?_⟩
      intro t ht hlt
      have hcard := Multiset.card_lt_card hlt
      simp only [Multiset.coe_card] at hcard
      exact absurd (hbound t ht) (by omega)
  | succ fuel ih =>
      intro S q hq hbound
      by_cases hex : ∃ t ∈ S, (q : Multiset Card) < (t : Multiset Card)
      · obtain ⟨t, ht, hqt⟩ := hex
        have hcard := Multiset.card_lt_card hqt
        simp only [Multiset.coe_card] at hcard
        obtain ⟨r, hr, htr, hmax⟩ := ih S t ht (by
          intro u hu
          have := hbound u hu
          omega)
        exact ⟨r, hr, le_trans (le_of_lt hqt) htr, hmax⟩
      · push_neg at hex
        exact ⟨q, hq, le_refl _, hex⟩

theorem exists_maximal (S : List PatternL) (q : PatternL) (hq : q ∈ S) :
    ∃ r ∈ S, (q : Multiset Card) ≤ (r : Multiset Card) ∧
      ∀ t ∈ S, ¬((r : Multiset Card) < (t : Multiset Card)) := by
  refine exists_maximal_aux ((S.map List.length).sum) S q hq ?_
  intro t ht
  have : t.length ≤ (S.map List.length).sum :=
    List.single_le_sum (by simp) _ (List.mem_map.mpr ⟨t, ht, rfl⟩)
  omega

theorem mem_output (d : List ((Weekday × Room) × List PatternL)) (x : PatternL) :
    x ∈ ((removeSubpatterns d).map Prod.snd).flatten ↔
      x ∈ (d.map Prod.snd).flatten ∧ x ∈ survivorsList d := by
  rw [removeSubpatterns, List.mem_flatten, List.mem_flatten]
  constructor
  · rintro ⟨l, hl, hx⟩
    obtain ⟨e', he', rfl⟩ := List.mem_map.mp hl
    obtain ⟨e, he, rfl⟩ := List.mem_map.mp he'
    simp only [List.mem_filter, decide_eq_true_eq] at hx
    exact ⟨⟨e.2, List.mem_map.mpr ⟨e, he, rfl⟩, hx.1⟩, hx.2⟩
  · rintro ⟨⟨l, hl, hx⟩, hsurv⟩
    obtain ⟨e, he, rfl⟩ := List.mem_map.mp hl
    refine ⟨(e.2.filter (fun p => decide (p ∈ survivorsList d))), ?_, ?_⟩
    · exact List.mem_map.mpr ⟨(e.1, e.2.filter (fun p => decide (p ∈ survivorsList d))),
        List.mem_map.mpr ⟨e, he, rfl⟩, rfl⟩
    · rw [List.mem_filter, decide_eq_true_eq]
      exact ⟨hx, hsurv⟩

/-- C2: a pattern from the corpus survives `remove_subpatterns` exactly
when no *surviving* pattern properly contains it as a multiset (so a
pattern is discarded iff it is a proper multiset-subset of some surviving
pattern; equal multisets, even reordered, never remove each other); on
the corpus [(A,B), (A,B,C), (A,A,B)] exactly (A,B) is removed, and a
corpus of two reorderings of the same multiset is left untouched. -/
theorem claim2_subsumption :
    (∀ (d : List ((Weekday × Room) × List PatternL)) (p : PatternL),
        p ∈ (d.map Prod.snd).flatten →
        (p ∈ ((removeSubpatterns d).map Prod.snd).flatten ↔
          ¬∃ q ∈ ((removeSubpatterns d).map Prod.snd).flatten,
            (p : Multiset Card) < (q : Multiset Card))) ∧
      removeSubpatterns cCorpus = [((0, 0), [[0, 1, 2], [0, 0, 1]])] ∧
      removeSubpatterns cCorpusReordered = cCorpusReordered := by
  refine ⟨?_, by decide, by decide⟩
  intro d p hp
  have hpall : p ∈ allPatterns d := by
    rw [allPatterns, List.mem_dedup]
    exact hp
  constructor
  · intro hout
    rw [mem_output] at hout
    have hsurv := (mem_survivorsList d p).mp hout.2
    rintro ⟨q, hq, hlt⟩
    rw [mem_output] at hq
    refine hsurv.2 ⟨q, ?_, hlt⟩
    rw [allPatterns, List.mem_dedup]
    exact hq.1
  · intro hno
    rw [mem_output]
    refine ⟨hp, (mem_survivorsList d p).mpr ⟨hpall, ?_⟩⟩
    rintro ⟨q, hq, hlt⟩
    obtain ⟨r, hr, hqr, hmax⟩ := exists_maximal (allPatterns d) q hq
    have hpr : (p : Multiset Card) < (r : Multiset Card) := lt_of_lt_of_le hlt hqr
    refine hno ⟨r, ?_, hpr⟩
    rw [mem_output]
    refine ⟨?_, (mem_survivorsList d r).mpr ⟨hr, ?_⟩⟩
    · rw [allPatterns, List.mem_dedup] at hr
      exact hr
    · rintro ⟨t, ht, hrt⟩
      exact hmax t ht hrt

/-- Witness for C2 at the subsumption-example corpus and pattern (A,B). -/
theorem claim2_witness :
    ([0, 1] : PatternL) ∈ ((removeSubpatterns cCorpus).map Prod.snd).flatten ↔
      ¬∃ q ∈ ((removeSubpatterns cCorpus).map Prod.snd).flatten,
        (([0, 1] : PatternL) : Multiset Card) < (q : Multiset Card) :=
  claim2_subsumption.1 cCorpus [0, 1] (by decide)

/-- C5: `remove_subpatterns` is idempotent — applying it to its own
output changes nothing, because every surviving pattern has no proper
multiset-superset in the (smaller) surviving corpus either. -/
theorem claim5_idempotent (d : List ((Weekday × Room) × List PatternL)) :
    removeSubpatterns (removeSubpatterns d) = removeSubpatterns d := by
  conv_lhs => rw [removeSubpatterns, removeSubpatterns, List.map_map]
  conv_rhs => rw [removeSubpatterns]
  refine List.map_congr_left ?_
  intro e he
  simp only [Function.comp_apply]
  congr 1
  rw [List.filter_filter]
  refine List.filter_congr ?_
  intro p hpe
  by_cases hs : p ∈ survivorsList d
  · have hA : p ∈ survivorsList (removeSubpatterns d) := by
      rw [mem_survivorsList]
      constructor
      · rw [mem_allPatterns]
        refine ⟨(e.1, e.2.filter (fun p => decide (p ∈ survivorsList d))), ?_, ?_⟩
        · rw [removeSubpatterns]
          exact List.mem_map.mpr ⟨e, he, rfl⟩
        · rw [List.mem_filter, decide_eq_true_eq]
          exact ⟨hpe, hs⟩
      · rintro ⟨q, hq, hlt⟩
        rw [mem_allPatterns] at hq
        obtain ⟨e', he', hqe'⟩ := hq
        rw [removeSubpatterns] at he'
        obtain ⟨e0, he0, rfl⟩ := List.mem_map.mp he'
        simp only [List.mem_filter, decide_eq_true_eq] at hqe'
        have hsurv := (mem_survivorsList d p).mp hs
        refine hsurv.2 ⟨q, ?_, hlt⟩
        rw [mem_allPatterns]
        exact ⟨e0, he0, hqe'.1⟩
    have hA2 : p ∈ survivorsList
        (d.map (fun e => (e.1, e.2.filter (fun p => decide (p ∈ survivorsList d))))) := hA
    rw [decide_eq_true hs, decide_eq_true hA2, Bool.and_self]
  · rw [decide_eq_false hs, Bool.and_false]


/-- C6: generation is deterministic — `generate_schedule` and
`generate_patterns` are functions of their inputs and the RNG state, and
the per-phase oracles of the pipeline are derived from the seed by a
fixed function (embedding `np.random.SeedSequence(seed).spawn`), so two
runs with identical seeds and identical inputs produce identical Schedule
and pattern outputs. -/
theorem claim6_determinism (rngOf : Nat → RngBundle)
    (freq : List ((Card × Surgeon) × ℚ)) (rooms : List Room)
    (weekdays : List Weekday) (sparams : ScheduleParams)
    (pparams : PatternParams) (fuel : Nat) (seed1 seed2 : Nat)
    (h : seed1 = seed2) :
    generateScheduleAndPatterns rngOf freq rooms weekdays sparams pparams fuel seed1
      = generateScheduleAndPatterns rngOf freq rooms weekdays sparams pparams fuel
          seed2 := by
  rw [h]

/-- Witness for C6 at a concrete seed and concrete inputs. -/
theorem claim6_witness :
    generateScheduleAndPatterns cBundleOf cFreqOne [0] [0] cParamsPlain cPParams 5 42
      = generateScheduleAndPatterns cBundleOf cFreqOne [0] [0] cParamsPlain
          cPParams 5 42 :=
  claim6_determinism cBundleOf cFreqOne [0] [0] cParamsPlain cPParams 5 42 42 rfl

end SG
